import Mathlib

/-!
Verification of the `curses.chstr` attributed string buffer
(src/src/curses/chstr.c of lcursesw).

The buffer is shallowly embedded: a `chstr` value carries the logical
length `len`, the backing capacity `size`, and the backing cells `str`
(modelled as a list of exactly `size` cells; cells that the C code
leaves uninitialized are modelled as the junk cell `⟨0, 0⟩`, and are
never observable because every code path that exposes a cell writes it
first).  Fallible operations return `Except Err chstr`; since the
embedding is purely functional, an error result leaves the caller's
buffer value untouched by construction, which mirrors the C code's
behaviour of raising a Lua error before any mutation.
-/

namespace LCurses

/-- One buffer cell: `cchar_t` restricted to the fields the module uses,
`chars[0]` (the codepoint) and `attr` (the combined attribute integer). -/
structure cchar_t where
  ch : Nat
  attr : Nat
deriving Repr, DecidableEq

/-- The `chstr` header: `len` is the element count, `size` the buffer
capacity, `str` the backing cells. -/
structure chstr where
  len : Nat
  size : Nat
  str : List cchar_t
deriving Repr, DecidableEq

/-- Error kinds of the module, as named by the specification.  The C code
reports them through `luaL_argcheck` / `luaL_argerror` / `luaL_error`. -/
inductive Err where
  | OutOfRange
  | InvalidArgument
  | InvalidEncoding
deriving Repr, DecidableEq

/-- Modelled from the spec: the neutral / no-attribute sentinel supplied by
the rendering collaborator (ncurses defines `A_NORMAL` as `0`). -/
def A_NORMAL : Nat := 0

/-- Modelled from the spec: the style/attributes mask supplied by the
rendering collaborator (wide ncurses: all bits above the character byte). -/
def A_ATTRIBUTES : Nat := 0xFFFFFF00

/-- Modelled from the spec: the color-pair mask supplied by the rendering
collaborator (wide ncurses: bits 8..15). -/
def A_COLOR : Nat := 0xFF00

/-- Modelled from the spec: `utf8_decode` lives in `_helpers.c`, which is
not among this repository's sources; the spec describes it as decoding one
UTF-8 scalar value from a byte slice, returning the codepoint and the bytes
consumed (here: the remaining bytes), or failing on a malformed sequence.
A truncated multi-byte sequence at the end of the input fails, as in the C
code, where the decoder meets the string's NUL terminator, which is not a
continuation byte. -/
def utf8_decode : List Nat → Option (Nat × List Nat)
  | [] => none
  | b :: rest =>
    if b < 0x80 then some (b, rest)
    else if b < 0xC2 then none
    else if b < 0xE0 then
      match rest with
      | c1 :: r =>
        if 0x80 ≤ c1 ∧ c1 < 0xC0 then
          some ((b - 0xC0) * 0x40 + (c1 - 0x80), r)
        else none
      | [] => none
    else if b < 0xF0 then
      match rest with
      | c1 :: c2 :: r =>
        if (0x80 ≤ c1 ∧ c1 < 0xC0) ∧ (0x80 ≤ c2 ∧ c2 < 0xC0) then
          let code := (b - 0xE0) * 0x1000 + (c1 - 0x80) * 0x40 + (c2 - 0x80)
          if code < 0x800 ∨ (0xD800 ≤ code ∧ code < 0xE000) then none
          else some (code, r)
        else none
      | _ => none
    else if b < 0xF5 then
      match rest with
      | c1 :: c2 :: c3 :: r =>
        if (0x80 ≤ c1 ∧ c1 < 0xC0) ∧ (0x80 ≤ c2 ∧ c2 < 0xC0) ∧ (0x80 ≤ c3 ∧ c3 < 0xC0) then
          let code := (b - 0xF0) * 0x40000 + (c1 - 0x80) * 0x1000
            + (c2 - 0x80) * 0x40 + (c3 - 0x80)
          if code < 0x10000 ∨ 0x10FFFF < code then none
          else some (code, r)
        else none
      | _ => none
    else none

/-- Fuel-driven iteration of `utf8_decode` over a whole byte sequence.
The fuel is a termination artifact only: `utf8_decode` consumes at least
one byte per step (`utf8_decode_shrinks`), so any fuel of at least the
input's length gives the same result (`utf8_decode_loop_fuel`). -/
def utf8_decode_loop : Nat → List Nat → Option (List Nat)
  | _, [] => some []
  | 0, _ :: _ => none
  | fuel + 1, b :: rest =>
    match utf8_decode (b :: rest) with
    | none => none
    | some (code, r) => (utf8_decode_loop fuel r).map (fun cs => code :: cs)

/-- The decode loops of `chstr_new` (chstr.c:59-69) and `Cset_str`
(chstr.c:119-126): decode every scalar value of the input, or fail if any
subsequence is malformed (all-or-nothing). -/
def utf8_decode_all (bytes : List Nat) : Option (List Nat) :=
  utf8_decode_loop bytes.length bytes

/-- Embedding of `chstr_new_by_size` (chstr.c:33-46): blank buffer of `len` cells, every
cell a space with `A_NORMAL`.  `len < 1` is rejected; the binding layer
(`create_chstr`, chstr.c:322) reports it as a bad-argument error, the
spec's `InvalidArgument`. -/
def chstr_new_by_size (n : Nat) : Except Err chstr :=
  if n < 1 then .error .InvalidArgument
  else .ok ⟨n, n, List.replicate n ⟨0x20, A_NORMAL⟩⟩

/-- Embedding of `chstr_new` (chstr.c:48-74): decode `bytes` as UTF-8, one cell per
codepoint, uniform `attr`; `size` is set to the BYTE length (line 55),
`len` to the decoded codepoint count (line 71).  On a malformed sequence
the allocation is freed and NULL returned (line 64): no buffer is
constructed.  Cells between `len` and `size` are uninitialized in C;
modelled as junk `⟨0, 0⟩`. -/
def chstr_new (bytes : List Nat) (attr : Nat) : Except Err chstr :=
  if bytes.length < 1 then .error .InvalidArgument
  else
    match utf8_decode_all bytes with
    | none => .error .InvalidEncoding
    | some codes =>
      .ok ⟨codes.length, bytes.length,
        codes.map (fun c => ⟨c, attr⟩) ++ List.replicate (bytes.length - codes.length) ⟨0, 0⟩⟩

/-- One tiling pass of `Cset_str`'s fill loop (chstr.c:153-161): the
decoded codepoints, each paired with `attr`, repeated `rep` times
back-to-back. -/
def tileCodes (codes : List Nat) (attr : Nat) (rep : Nat) : List cchar_t :=
  (List.replicate rep (codes.map (fun c => ⟨c, attr⟩))).flatten

/-- Sequential cell writes through a walking pointer, as in the fill loops
of `Cset_str`: overwrite `s[off]`, `s[off+1]`, ... with `cells`. -/
def writeCells : List cchar_t → Nat → List cchar_t → List cchar_t
  | s, _, [] => s
  | s, off, c :: cells => writeCells (s.set off c) (off + 1) cells

/-- Embedding of `Cset_str` (chstr.c:101-165).  Checks, in C order: `0 < offset ≤ len`
(line 106, "bad index" → `OutOfRange`); `rep > 0` (line 114, → the spec's
`InvalidArgument`); full UTF-8 decode of `text` into a temporary array
(lines 119-126, failure → `InvalidEncoding` with the buffer untouched);
non-empty decode (line 128, → `InvalidArgument`).  Then
`new_size = utf8_str_len * rep + (offset-1)` (line 135); if it exceeds
`size` the storage is reallocated to exactly `new_size` (lines 137-145,
new cells uninitialized, modelled as junk); if it exceeds `len`, `len`
is advanced (lines 149-151); finally the tiled codepoints are written at
`offset-1`, every written cell getting `attr` (lines 153-161). -/
def Cset_str (cs : chstr) (offset : Nat) (text : List Nat) (attr : Nat) (rep : Nat) :
    Except Err chstr :=
  if ¬ (0 < offset ∧ offset ≤ cs.len) then .error .OutOfRange
  else if ¬ 0 < rep then .error .InvalidArgument
  else
    match utf8_decode_all text with
    | none => .error .InvalidEncoding
    | some codes =>
      if codes.length < 1 then .error .InvalidArgument
      else
        let off := offset - 1
        let new_size := codes.length * rep + off
        let grown : chstr :=
          if new_size > cs.size then
            ⟨cs.len, new_size, cs.str ++ List.replicate (new_size - cs.size) ⟨0, 0⟩⟩
          else cs
        let len1 := if new_size > grown.len then new_size else grown.len
        .ok ⟨len1, grown.size, writeCells grown.str off (tileCodes codes attr rep)⟩

/-- The write loop of `Cset_ch` (chstr.c:197-203): `rep` consecutive cells
starting at `off` get codepoint `ch`; the attribute is overwritten only
when one was supplied (`set_attr`, line 190), otherwise the cell's
existing attribute is kept. -/
def setChLoop : List cchar_t → Nat → Nat → Option Nat → Nat → List cchar_t
  | s, _, _, _, 0 => s
  | s, off, ch, attrOpt, rep + 1 =>
    setChLoop (s.set off ⟨ch, attrOpt.getD (s.getD off ⟨0, 0⟩).attr⟩) (off + 1) ch attrOpt rep

/-- Embedding of `Cset_ch` (chstr.c:182-206).  Checks, in C order: `0 < offset ≤ len`
(line 187, → `OutOfRange`); `0 < rep ≤ len - offset + 1` (line 193, →
`OutOfRange`).  Never grows the buffer: `len`, `size` and the backing
storage length are unchanged.  `ch` is the codepoint already decoded by
`checkutf8char`. -/
def Cset_ch (cs : chstr) (offset : Nat) (ch : Nat) (attrOpt : Option Nat) (rep : Nat) :
    Except Err chstr :=
  if ¬ (0 < offset ∧ offset ≤ cs.len) then .error .OutOfRange
  else if ¬ (0 < rep ∧ rep ≤ cs.len - offset + 1) then .error .OutOfRange
  else .ok ⟨cs.len, cs.size, setChLoop cs.str (offset - 1) ch attrOpt rep⟩

/-- Embedding of `Cget` (chstr.c:221-235): bounds check `0 < offset ≤ len` (line 227),
then return the cell's codepoint, its attribute masked by `A_ATTRIBUTES`,
and its attribute masked by `A_COLOR`. -/
def Cget (cs : chstr) (offset : Nat) : Except Err (Nat × Nat × Nat) :=
  if ¬ (0 < offset ∧ offset ≤ cs.len) then .error .OutOfRange
  else
    let c := cs.str.getD (offset - 1) ⟨0, 0⟩
    .ok (c.ch, c.attr &&& A_ATTRIBUTES, c.attr &&& A_COLOR)

/-- Embedding of `Clen` (chstr.c:248-253). -/
def Clen (cs : chstr) : Nat := cs.len

/-- Embedding of `Csize` (chstr.c:266-271). -/
def Csize (cs : chstr) : Nat := cs.size

/-- Embedding of `Cdup` (chstr.c:281-298): fresh allocation of `CHSTR_SIZE(cs->len)`
cells, `memcpy` of the header and the first `len` cells, then `size`
overwritten with `len` (line 294): capacity is trimmed to the logical
length.  The copy is into fresh memory, so the duplicate shares no storage
with the source. -/
def Cdup (cs : chstr) : chstr := ⟨cs.len, cs.len, cs.str.take cs.len⟩

/-- Well-formedness of a live buffer: at least one logical cell, logical
length within capacity, and the backing storage of exactly `size` cells. -/
def chstr.WF (cs : chstr) : Prop :=
  1 ≤ cs.len ∧ cs.len ≤ cs.size ∧ cs.str.length = cs.size

instance (cs : chstr) : Decidable cs.WF := by
  unfold chstr.WF; infer_instance

/-! ### Decoder lemmas -/

theorem utf8_decode_shrinks :
    ∀ (l : List Nat) (c : Nat) (r : List Nat), utf8_decode l = some (c, r) →
      r.length < l.length := by
  intro l c r h
  unfold utf8_decode at h
  repeat' split at h
  all_goals simp_all
  all_goals omega

theorem utf8_decode_loop_fuel :
    ∀ (f1 f2 : Nat) (l : List Nat), l.length ≤ f1 → l.length ≤ f2 →
      utf8_decode_loop f1 l = utf8_decode_loop f2 l := by
  intro f1
  induction f1 with
  | zero =>
    intro f2 l h1 _
    have : l = [] := List.length_eq_zero.mp (Nat.le_zero.mp h1)
    subst this
    simp only [utf8_decode_loop]
  | succ f1 ih =>
    intro f2 l h1 h2
    match l, f2 with
    | [], _ => simp only [utf8_decode_loop]
    | b :: rest, f2 + 1 =>
      simp only [utf8_decode_loop]
      cases hd : utf8_decode (b :: rest) with
      | none => rfl
      | some cr =>
        obtain ⟨c, r⟩ := cr
        have hr : r.length < rest.length + 1 := utf8_decode_shrinks _ _ _ hd
        simp only [List.length_cons] at h1 h2
        exact congrArg (Option.map fun cs => c :: cs) (ih f2 r (by omega) (by omega))

theorem utf8_decode_all_nil : utf8_decode_all [] = some [] := rfl

/-- Unfolding rule for the whole-input decoder: decode one scalar value,
then the rest. -/
theorem utf8_decode_all_cons (b : Nat) (rest : List Nat) :
    utf8_decode_all (b :: rest) =
      match utf8_decode (b :: rest) with
      | none => none
      | some (code, r) => (utf8_decode_all r).map (fun cs => code :: cs) := by
  rw [utf8_decode_all, List.length_cons]
  simp only [utf8_decode_loop]
  cases hd : utf8_decode (b :: rest) with
  | none => rfl
  | some cr =>
    obtain ⟨c, r⟩ := cr
    have hr : r.length < rest.length + 1 := utf8_decode_shrinks _ _ _ hd
    exact congrArg (Option.map fun cs => c :: cs)
      (utf8_decode_loop_fuel rest.length r.length r (by omega) le_rfl)

/-- A successful decode never yields more codepoints than input bytes, and
yields at least one codepoint from a non-empty input. -/
theorem utf8_decode_all_spec :
    ∀ (l : List Nat) (codes : List Nat), utf8_decode_all l = some codes →
      codes.length ≤ l.length ∧ (l ≠ [] → codes ≠ []) := by
  have main : ∀ (n : Nat) (l : List Nat), l.length ≤ n → ∀ codes,
      utf8_decode_all l = some codes →
      codes.length ≤ l.length ∧ (l ≠ [] → codes ≠ []) := by
    intro n
    induction n with
    | zero =>
      intro l hl codes h
      have : l = [] := List.length_eq_zero.mp (Nat.le_zero.mp hl)
      subst this
      rw [utf8_decode_all_nil] at h
      simp_all
    | succ n ih =>
      intro l hl codes h
      match l with
      | [] =>
        rw [utf8_decode_all_nil] at h
        simp_all
      | b :: rest =>
        rw [utf8_decode_all_cons] at h
        cases hd : utf8_decode (b :: rest) with
        | none => rw [hd] at h; simp at h
        | some cr =>
          obtain ⟨c, r⟩ := cr
          rw [hd] at h
          simp only [Option.map_eq_some'] at h
          obtain ⟨cs, hcs, rfl⟩ := h
          have hr : r.length < rest.length + 1 := utf8_decode_shrinks _ _ _ hd
          simp only [List.length_cons] at hl
          have := ih r (by omega) cs hcs
          simp only [List.length_cons]
          constructor
          · omega
          · simp
  exact fun l => main l.length l le_rfl

/-! ### Write-loop lemmas -/

theorem writeCells_length (cells : List cchar_t) :
    ∀ (s : List cchar_t) (off : Nat), (writeCells s off cells).length = s.length := by
  induction cells with
  | nil => intro s off; rfl
  | cons c cells ih =>
    intro s off
    rw [writeCells, ih, List.length_set]

theorem writeCells_getElem?_lt (cells : List cchar_t) :
    ∀ (s : List cchar_t) (off i : Nat), i < off →
      (writeCells s off cells)[i]? = s[i]? := by
  induction cells with
  | nil => intro s off i _; rfl
  | cons c cells ih =>
    intro s off i hi
    rw [writeCells, ih _ _ _ (by omega), List.getElem?_set_ne (by omega)]

theorem writeCells_getElem?_ge (cells : List cchar_t) :
    ∀ (s : List cchar_t) (off i : Nat), off + cells.length ≤ i →
      (writeCells s off cells)[i]? = s[i]? := by
  induction cells with
  | nil => intro s off i _; rfl
  | cons c cells ih =>
    intro s off i hi
    simp only [List.length_cons] at hi
    rw [writeCells, ih _ _ _ (by omega), List.getElem?_set_ne (by omega)]

theorem writeCells_getElem?_mem (cells : List cchar_t) :
    ∀ (s : List cchar_t) (off i : Nat), off ≤ i → i < off + cells.length →
      i < s.length → (writeCells s off cells)[i]? = cells[i - off]? := by
  induction cells with
  | nil => intro s off i h1 h2 _; simp only [List.length_nil, Nat.add_zero] at h2; omega
  | cons c cells ih =>
    intro s off i h1 h2 hs
    rw [writeCells]
    rcases Nat.eq_or_lt_of_le h1 with rfl | hlt
    · rw [writeCells_getElem?_lt cells _ _ _ (by omega),
        List.getElem?_set_self (by omega), Nat.sub_self, List.getElem?_cons_zero]
    · rw [ih (s.set off c) (off + 1) i (by omega)
        (by simp only [List.length_cons] at h2 ⊢; omega)
        (by rw [List.length_set]; exact hs)]
      have hio : i - off = (i - (off + 1)) + 1 := by omega
      rw [hio, List.getElem?_cons_succ]

theorem tileCodes_length (codes : List Nat) (attr : Nat) :
    ∀ rep, (tileCodes codes attr rep).length = rep * codes.length := by
  intro rep
  induction rep with
  | zero => simp [tileCodes]
  | succ rep ih =>
    rw [tileCodes, List.replicate_succ, List.flatten_cons, List.length_append,
      List.length_map]
    rw [tileCodes] at ih
    rw [ih]
    ring

theorem tileCodes_getElem? (codes : List Nat) (attr : Nat) :
    ∀ (rep k : Nat), 0 < codes.length → k < rep * codes.length →
      (tileCodes codes attr rep)[k]? =
        (codes[k % codes.length]?).map (fun c => ⟨c, attr⟩) := by
  intro rep
  induction rep with
  | zero => intro k _ hk; simp only [Nat.zero_mul] at hk; omega
  | succ rep ih =>
    intro k hd hk
    rw [tileCodes, List.replicate_succ, List.flatten_cons, List.getElem?_append]
    by_cases hcase : k < codes.length
    · rw [if_pos (by rw [List.length_map]; exact hcase), List.getElem?_map,
        Nat.mod_eq_of_lt hcase]
    · rw [if_neg (by rw [List.length_map]; omega), List.length_map]
      rw [tileCodes] at ih
      have hmul : (rep + 1) * codes.length = rep * codes.length + codes.length :=
        Nat.succ_mul rep codes.length
      rw [ih (k - codes.length) hd (by omega)]
      rw [← Nat.mod_eq_sub_mod (by omega : codes.length ≤ k)]

theorem setChLoop_length :
    ∀ (rep : Nat) (s : List cchar_t) (off ch : Nat) (attrOpt : Option Nat),
      (setChLoop s off ch attrOpt rep).length = s.length := by
  intro rep
  induction rep with
  | zero => intros; rfl
  | succ rep ih =>
    intro s off ch attrOpt
    rw [setChLoop, ih, List.length_set]

theorem setChLoop_getElem?_outside :
    ∀ (rep : Nat) (s : List cchar_t) (off ch : Nat) (attrOpt : Option Nat) (i : Nat),
      i < off ∨ off + rep ≤ i →
      (setChLoop s off ch attrOpt rep)[i]? = s[i]? := by
  intro rep
  induction rep with
  | zero => intros; rfl
  | succ rep ih =>
    intro s off ch attrOpt i hi
    rw [setChLoop, ih _ _ _ _ _ (by omega), List.getElem?_set_ne (by omega)]

theorem setChLoop_getElem?_inside :
    ∀ (rep : Nat) (s : List cchar_t) (off ch : Nat) (attrOpt : Option Nat) (k : Nat),
      k < rep → off + k < s.length →
      (setChLoop s off ch attrOpt rep)[off + k]? =
        some ⟨ch, attrOpt.getD (s.getD (off + k) ⟨0, 0⟩).attr⟩ := by
  intro rep
  induction rep with
  | zero => intro s off ch attrOpt k hk _; omega
  | succ rep ih =>
    intro s off ch attrOpt k hk hs
    rw [setChLoop]
    match k with
    | 0 =>
      rw [setChLoop_getElem?_outside rep _ _ _ _ _ (by omega), Nat.add_zero,
        List.getElem?_set_self (by omega)]
    | k + 1 =>
      rw [show off + (k + 1) = (off + 1) + k by omega,
        ih (s.set off _) (off + 1) ch attrOpt k (by omega)
          (by rw [List.length_set]; omega)]
      simp only [List.getD_eq_getElem?_getD]
      rw [List.getElem?_set_ne (by omega),
        show (off + 1) + k = off + (k + 1) by omega]

/-! ### Operation inversion lemmas -/

/-- Inversion of a successful `Cset_str` call: the preconditions held and
the result is the grown-and-filled buffer. -/
theorem Cset_str_ok_elim {cs : chstr} {offset : Nat} {text : List Nat} {attr rep : Nat}
    {codes : List Nat} {cs' : chstr}
    (hdec : utf8_decode_all text = some codes)
    (hok : Cset_str cs offset text attr rep = .ok cs') :
    (0 < offset ∧ offset ≤ cs.len) ∧ 0 < rep ∧ 0 < codes.length ∧
    cs' = ⟨if codes.length * rep + (offset - 1) > cs.len then codes.length * rep + (offset - 1)
             else cs.len,
           if codes.length * rep + (offset - 1) > cs.size then codes.length * rep + (offset - 1)
             else cs.size,
           writeCells
             (if codes.length * rep + (offset - 1) > cs.size then
                cs.str ++ List.replicate (codes.length * rep + (offset - 1) - cs.size) ⟨0, 0⟩
              else cs.str)
             (offset - 1) (tileCodes codes attr rep)⟩ := by
  unfold Cset_str at hok
  rw [hdec] at hok
  split at hok
  · exact absurd hok (by simp)
  next hcond1 =>
    split at hok
    · exact absurd hok (by simp)
    next hcond2 =>
      split at hok
      next heq => exact absurd heq (by simp)
      next codes2 heq =>
        injection heq with heq2
        subst heq2
        split at hok
        · exact absurd hok (by simp)
        next hlen =>
          refine ⟨not_not.mp hcond1, not_not.mp hcond2, by omega, ?_⟩
          simp only [Except.ok.injEq] at hok
          subst hok
          by_cases hgrow : codes.length * rep + (offset - 1) > cs.size
          · simp only [if_pos hgrow]
          · simp only [if_neg hgrow]

/-- Inversion of a successful `Cset_ch` call. -/
theorem Cset_ch_ok_elim {cs : chstr} {offset ch : Nat} {attrOpt : Option Nat} {rep : Nat}
    {cs' : chstr}
    (hok : Cset_ch cs offset ch attrOpt rep = .ok cs') :
    (0 < offset ∧ offset ≤ cs.len) ∧ (0 < rep ∧ rep ≤ cs.len - offset + 1) ∧
    cs' = ⟨cs.len, cs.size, setChLoop cs.str (offset - 1) ch attrOpt rep⟩ := by
  unfold Cset_ch at hok
  split at hok
  · exact absurd hok (by simp)
  next hcond1 =>
    split at hok
    · exact absurd hok (by simp)
    next hcond2 =>
      simp only [Except.ok.injEq] at hok
      exact ⟨not_not.mp hcond1, not_not.mp hcond2, hok.symm⟩

/-! ### Claim theorems: set_str family -/

/-- C1: for every successful `set_str(buffer, offset, text, attribute,
repeat)` call with `required = (offset − 1) + decoded_length × repeat`:
if `required` exceeded the capacity the new capacity is exactly
`required`; if it exceeded the length the new length is exactly
`required`; and if it was within the length both length and capacity are
unchanged. -/
theorem C1_set_str_extent (cs cs' : chstr) (offset : Nat) (text : List Nat)
    (attr rep : Nat) (codes : List Nat)
    (hinv : cs.len ≤ cs.size)
    (hdec : utf8_decode_all text = some codes)
    (hok : Cset_str cs offset text attr rep = .ok cs') :
    ((offset - 1) + codes.length * rep > cs.size →
      cs'.size = (offset - 1) + codes.length * rep) ∧
    ((offset - 1) + codes.length * rep > cs.len →
      cs'.len = (offset - 1) + codes.length * rep) ∧
    ((offset - 1) + codes.length * rep ≤ cs.len →
      cs'.len = cs.len ∧ cs'.size = cs.size) := by
  obtain ⟨hoff, hrep, hcl, hrec⟩ := Cset_str_ok_elim hdec hok
  refine ⟨?_, ?_, ?_⟩
  · intro h
    rw [hrec]
    dsimp only
    rw [if_pos (by omega)]
    omega
  · intro h
    rw [hrec]
    dsimp only
    rw [if_pos (by omega)]
    omega
  · intro h
    rw [hrec]
    dsimp only
    rw [if_neg (by omega), if_neg (by omega)]
    exact ⟨rfl, rfl⟩

theorem C1_set_str_extent_witness :
    ((8 - 1) + 2 * 2 > (10 : Nat) →
      (⟨11, 11, List.replicate 7 ⟨32, 0⟩ ++
        [⟨65, 5⟩, ⟨66, 5⟩, ⟨65, 5⟩, ⟨66, 5⟩]⟩ : chstr).size = (8 - 1) + 2 * 2) ∧
    ((8 - 1) + 2 * 2 > (10 : Nat) →
      (⟨11, 11, List.replicate 7 ⟨32, 0⟩ ++
        [⟨65, 5⟩, ⟨66, 5⟩, ⟨65, 5⟩, ⟨66, 5⟩]⟩ : chstr).len = (8 - 1) + 2 * 2) ∧
    ((8 - 1) + 2 * 2 ≤ (10 : Nat) →
      (⟨11, 11, List.replicate 7 ⟨32, 0⟩ ++
        [⟨65, 5⟩, ⟨66, 5⟩, ⟨65, 5⟩, ⟨66, 5⟩]⟩ : chstr).len = 10 ∧
      (⟨11, 11, List.replicate 7 ⟨32, 0⟩ ++
        [⟨65, 5⟩, ⟨66, 5⟩, ⟨65, 5⟩, ⟨66, 5⟩]⟩ : chstr).size = 10) :=
  C1_set_str_extent ⟨10, 10, List.replicate 10 ⟨32, 0⟩⟩
    ⟨11, 11, List.replicate 7 ⟨32, 0⟩ ++ [⟨65, 5⟩, ⟨66, 5⟩, ⟨65, 5⟩, ⟨66, 5⟩]⟩
    8 [65, 66] 5 2 [65, 66] (by decide) (by rfl) (by rfl)
/-- C3: on input containing a malformed UTF-8 subsequence (i.e. on which
the decoder fails), `new_from_text` fails with `InvalidEncoding` and
constructs no buffer, and `set_str` (reached with its offset/repeat
preconditions satisfied) fails with `InvalidEncoding`; in this pure
embedding an error result is returned before any buffer is built, so the
target buffer value is untouched — matching the C code, which frees its
temporary and raises before writing a single cell. -/
theorem C3_invalid_encoding (bytes : List Nat) (attr : Nat)
    (hbad : utf8_decode_all bytes = none) :
    chstr_new bytes attr = .error .InvalidEncoding ∧
    ∀ (cs : chstr) (offset attr2 rep : Nat), 0 < offset → offset ≤ cs.len → 0 < rep →
      Cset_str cs offset bytes attr2 rep = .error .InvalidEncoding := by
  have hne : bytes ≠ [] := by
    intro h
    subst h
    rw [utf8_decode_all_nil] at hbad
    cases hbad
  constructor
  · unfold chstr_new
    rw [if_neg (by have := List.length_pos.mpr hne; omega), hbad]
  · intro cs offset attr2 rep h1 h2 h3
    unfold Cset_str
    rw [if_neg (not_not.mpr ⟨h1, h2⟩), if_neg (not_not.mpr h3), hbad]

theorem C3_invalid_encoding_witness :
    chstr_new [255] 0 = .error .InvalidEncoding ∧
    Cset_str ⟨1, 1, [⟨32, 0⟩]⟩ 1 [255] 0 1 = .error .InvalidEncoding :=
  ⟨(C3_invalid_encoding [255] 0 rfl).1,
   (C3_invalid_encoding [255] 0 rfl).2 ⟨1, 1, [⟨32, 0⟩]⟩ 1 0 1
     (by decide) (by decide) (by decide)⟩

/-- C4: a successful `set_str` call writes, for every `k < d × repeat`
(`d` the decoded length), the codepoint `codes[k mod d]` with attribute
`attr` at 0-based cell `(offset − 1) + k`, and preserves every
pre-existing cell outside the window `[offset − 1, offset − 1 + d × repeat)`. -/
theorem C4_set_str_fill (cs cs' : chstr) (offset : Nat) (text : List Nat)
    (attr rep : Nat) (codes : List Nat)
    (hwf : cs.str.length = cs.size)
    (hdec : utf8_decode_all text = some codes)
    (hok : Cset_str cs offset text attr rep = .ok cs') :
    (∀ k, k < codes.length * rep →
      cs'.str[(offset - 1) + k]? = (codes[k % codes.length]?).map (fun c => ⟨c, attr⟩)) ∧
    (∀ i, i < cs.str.length → (i < offset - 1 ∨ (offset - 1) + codes.length * rep ≤ i) →
      cs'.str[i]? = cs.str[i]?) := by
  obtain ⟨hoff, hrep, hcl, hrec⟩ := Cset_str_ok_elim hdec hok
  have htilelen : (tileCodes codes attr rep).length = rep * codes.length :=
    tileCodes_length codes attr rep
  have hcomm : rep * codes.length = codes.length * rep := Nat.mul_comm rep codes.length
  constructor
  · intro k hk
    rw [hrec]
    dsimp only
    have hin : (offset - 1) ≤ (offset - 1) + k := by omega
    have hwin : (offset - 1) + k < (offset - 1) + (tileCodes codes attr rep).length := by
      rw [htilelen]; omega
    have hlen : (offset - 1) + k <
        (if codes.length * rep + (offset - 1) > cs.size then
          cs.str ++ List.replicate (codes.length * rep + (offset - 1) - cs.size) ⟨0, 0⟩
         else cs.str).length := by
      split
      · rw [List.length_append, List.length_replicate, hwf]; omega
      · rw [hwf]; omega
    rw [writeCells_getElem?_mem _ _ _ _ hin hwin hlen, Nat.add_sub_cancel_left,
      tileCodes_getElem? codes attr rep k (by omega) (by omega)]
  · intro i hi hout
    rw [hrec]
    dsimp only
    have : (writeCells
        (if codes.length * rep + (offset - 1) > cs.size then
          cs.str ++ List.replicate (codes.length * rep + (offset - 1) - cs.size) ⟨0, 0⟩
         else cs.str) (offset - 1) (tileCodes codes attr rep))[i]? =
        (if codes.length * rep + (offset - 1) > cs.size then
          cs.str ++ List.replicate (codes.length * rep + (offset - 1) - cs.size) ⟨0, 0⟩
         else cs.str)[i]? := by
      rcases hout with hlt | hge
      · exact writeCells_getElem?_lt _ _ _ _ hlt
      · exact writeCells_getElem?_ge _ _ _ _ (by rw [htilelen]; omega)
    rw [this]
    split
    · rw [List.getElem?_append, if_pos hi]
    · rfl

theorem C4_set_str_fill_witness :
    ((⟨11, 11, List.replicate 7 ⟨32, 0⟩ ++
        [⟨65, 5⟩, ⟨66, 5⟩, ⟨65, 5⟩, ⟨66, 5⟩]⟩ : chstr).str[(8 - 1) + 2]? =
      ([65, 66][2 % 2]?).map (fun c => ⟨c, 5⟩)) ∧
    ((⟨11, 11, List.replicate 7 ⟨32, 0⟩ ++
        [⟨65, 5⟩, ⟨66, 5⟩, ⟨65, 5⟩, ⟨66, 5⟩]⟩ : chstr).str[0]? =
      (⟨10, 10, List.replicate 10 ⟨32, 0⟩⟩ : chstr).str[0]?) :=
  ⟨(C4_set_str_fill ⟨10, 10, List.replicate 10 ⟨32, 0⟩⟩
      ⟨11, 11, List.replicate 7 ⟨32, 0⟩ ++ [⟨65, 5⟩, ⟨66, 5⟩, ⟨65, 5⟩, ⟨66, 5⟩]⟩
      8 [65, 66] 5 2 [65, 66] (by rfl) (by rfl) (by rfl)).1 2 (by decide),
   (C4_set_str_fill ⟨10, 10, List.replicate 10 ⟨32, 0⟩⟩
      ⟨11, 11, List.replicate 7 ⟨32, 0⟩ ++ [⟨65, 5⟩, ⟨66, 5⟩, ⟨65, 5⟩, ⟨66, 5⟩]⟩
      8 [65, 66] 5 2 [65, 66] (by rfl) (by rfl) (by rfl)).2 0 (by decide)
      (by left; decide)⟩

/-- C10: when the required extent fits in pre-existing slack
(`len < required ≤ capacity`, as arises after construction from
multi-byte text), a successful `set_str` performs no reallocation —
capacity and backing-storage length are unchanged — yet still advances
the logical length to `required`. -/
theorem C10_grow_into_slack (cs cs' : chstr) (offset : Nat) (text : List Nat)
    (attr rep : Nat) (codes : List Nat)
    (hdec : utf8_decode_all text = some codes)
    (hok : Cset_str cs offset text attr rep = .ok cs')
    (hgt : cs.len < (offset - 1) + codes.length * rep)
    (hle : (offset - 1) + codes.length * rep ≤ cs.size) :
    cs'.size = cs.size ∧ cs'.str.length = cs.str.length ∧
    cs'.len = (offset - 1) + codes.length * rep := by
  obtain ⟨hoff, hrep, hcl, hrec⟩ := Cset_str_ok_elim hdec hok
  rw [hrec]
  dsimp only
  rw [if_neg (by omega), if_neg (by omega), if_pos (by omega)]
  refine ⟨rfl, ?_, by omega⟩
  rw [writeCells_length]

theorem C10_grow_into_slack_witness :
    (⟨2, 2, [⟨65, 5⟩, ⟨66, 5⟩]⟩ : chstr).size = (⟨1, 2, [⟨233, 0⟩, ⟨0, 0⟩]⟩ : chstr).size ∧
    (⟨2, 2, [⟨65, 5⟩, ⟨66, 5⟩]⟩ : chstr).str.length =
      (⟨1, 2, [⟨233, 0⟩, ⟨0, 0⟩]⟩ : chstr).str.length ∧
    (⟨2, 2, [⟨65, 5⟩, ⟨66, 5⟩]⟩ : chstr).len = (1 - 1) + 2 * 1 :=
  C10_grow_into_slack ⟨1, 2, [⟨233, 0⟩, ⟨0, 0⟩]⟩ ⟨2, 2, [⟨65, 5⟩, ⟨66, 5⟩]⟩
    1 [65, 66] 5 1 [65, 66] (by rfl) (by rfl) (by decide) (by decide)

/-! ### Claim theorems: set_ch, new_blank, dup -/

/-- C5: for `1 ≤ o ≤ buf.length`, `set_ch(buf, o, ch, attr)` followed by
`get(buf, o)` returns `(ch, attr AND style-mask, attr AND color-mask)`. -/
theorem C5_set_ch_get_roundtrip (cs : chstr) (o ch attr : Nat)
    (hwf : cs.len ≤ cs.str.length) (h1 : 1 ≤ o) (h2 : o ≤ cs.len) :
    ∃ cs', Cset_ch cs o ch (some attr) 1 = .ok cs' ∧
      Cget cs' o = .ok (ch, attr &&& A_ATTRIBUTES, attr &&& A_COLOR) := by
  refine ⟨⟨cs.len, cs.size, setChLoop cs.str (o - 1) ch (some attr) 1⟩, ?_, ?_⟩
  · unfold Cset_ch
    rw [if_neg (not_not.mpr ⟨by omega, h2⟩),
      if_neg (not_not.mpr ⟨by omega, by omega⟩)]
  · unfold Cget
    rw [if_neg (not_not.mpr ⟨by omega, h2⟩)]
    dsimp only
    have hcell : (setChLoop cs.str (o - 1) ch (some attr) 1)[(o - 1) + 0]? =
        some ⟨ch, (some attr).getD (cs.str.getD ((o - 1) + 0) ⟨0, 0⟩).attr⟩ :=
      setChLoop_getElem?_inside 1 cs.str (o - 1) ch (some attr) 0 (by omega) (by omega)
    rw [Nat.add_zero] at hcell
    rw [List.getD_eq_getElem?_getD, hcell]
    rfl

theorem C5_set_ch_get_roundtrip_witness :
    ∃ cs', Cset_ch ⟨2, 2, [⟨32, 0⟩, ⟨32, 0⟩]⟩ 2 65 (some 2097152) 1 = .ok cs' ∧
      Cget cs' 2 = .ok (65, 2097152 &&& A_ATTRIBUTES, 2097152 &&& A_COLOR) :=
  C5_set_ch_get_roundtrip ⟨2, 2, [⟨32, 0⟩, ⟨32, 0⟩]⟩ 2 65 2097152
    (by decide) (by decide) (by decide)

/-- C6: `new_blank(n)` for `n ≥ 1` yields a buffer with
`length = capacity = n` whose every cell reads back through `get` as a
space with `A_NORMAL`'s style bits and color bits; `n < 1` fails with
`InvalidArgument` and constructs no buffer. -/
theorem C6_new_blank (n : Nat) :
    (n < 1 → chstr_new_by_size n = .error .InvalidArgument) ∧
    (1 ≤ n → ∃ cs, chstr_new_by_size n = .ok cs ∧ cs.len = n ∧ cs.size = n ∧
      ∀ o, 1 ≤ o → o ≤ n →
        Cget cs o = .ok (0x20, A_NORMAL &&& A_ATTRIBUTES, A_NORMAL &&& A_COLOR)) := by
  constructor
  · intro h
    unfold chstr_new_by_size
    rw [if_pos h]
  · intro h
    refine ⟨⟨n, n, List.replicate n ⟨0x20, A_NORMAL⟩⟩, ?_, rfl, rfl, ?_⟩
    · unfold chstr_new_by_size
      rw [if_neg (by omega)]
    · intro o ho1 ho2
      unfold Cget
      rw [if_neg (not_not.mpr ⟨by omega, ho2⟩)]
      dsimp only
      rw [List.getD_eq_getElem?_getD, List.getElem?_replicate, if_pos (by omega)]
      rfl

theorem C6_new_blank_witness :
    (0 < 1 → chstr_new_by_size 0 = .error .InvalidArgument) ∧
    (∃ cs, chstr_new_by_size 3 = .ok cs ∧ cs.len = 3 ∧ cs.size = 3 ∧
      ∀ o, 1 ≤ o → o ≤ 3 →
        Cget cs o = .ok (0x20, A_NORMAL &&& A_ATTRIBUTES, A_NORMAL &&& A_COLOR)) :=
  ⟨(C6_new_blank 0).1, (C6_new_blank 3).2 (by decide)⟩

/-- C7: `dup` yields a buffer whose length equals the source's length,
whose capacity is trimmed to that same length (even when the source's
capacity exceeds its length), and whose first `length` cells equal the
source's cells verbatim.  Independence of the copy is immediate in this
embedding: `Cdup` builds a fresh value sharing no mutable state, as the C
code allocates fresh storage and `memcpy`s into it. -/
theorem C7_dup_trim_copy (cs : chstr) :
    (Cdup cs).len = cs.len ∧ (Cdup cs).size = cs.len ∧
    (∀ i, i < cs.len → (Cdup cs).str[i]? = cs.str[i]?) := by
  refine ⟨rfl, rfl, ?_⟩
  intro i hi
  unfold Cdup
  dsimp only
  rw [List.getElem?_take, if_pos hi]

theorem C7_dup_trim_copy_witness :
    (Cdup ⟨1, 3, [⟨65, 7⟩, ⟨0, 0⟩, ⟨0, 0⟩]⟩).len = (1 : Nat) ∧
    (Cdup ⟨1, 3, [⟨65, 7⟩, ⟨0, 0⟩, ⟨0, 0⟩]⟩).size = (1 : Nat) ∧
    (∀ i, i < (1 : Nat) →
      (Cdup ⟨1, 3, [⟨65, 7⟩, ⟨0, 0⟩, ⟨0, 0⟩]⟩).str[i]? =
        ([⟨65, 7⟩, ⟨0, 0⟩, ⟨0, 0⟩] : List cchar_t)[i]?) :=
  C7_dup_trim_copy ⟨1, 3, [⟨65, 7⟩, ⟨0, 0⟩, ⟨0, 0⟩]⟩

/-! ### Claim theorems: error paths, invariants, construction -/
/-- C8: `set_ch` fails with `OutOfRange` whenever the offset is outside
`[1, length]` or the repeat count is outside `[1, length − offset + 1]`
(in this pure embedding the error return leaves the buffer value
untouched, as the C code raises before any write); a successful call
changes neither `length` nor `capacity` nor the backing-storage length
(no reallocation), writes codepoint `ch` into cells
`offset .. offset + repeat − 1`, overwriting each written cell's
attribute when one is supplied and leaving it untouched when omitted,
and preserves every cell outside that window. -/
theorem C8_set_ch_bounds (cs : chstr) (offset ch rep : Nat) (attrOpt : Option Nat)
    (hwf : cs.len ≤ cs.str.length) :
    (¬(1 ≤ offset ∧ offset ≤ cs.len) ∨ ¬(1 ≤ rep ∧ rep ≤ cs.len - offset + 1) →
      Cset_ch cs offset ch attrOpt rep = .error .OutOfRange) ∧
    (∀ cs', Cset_ch cs offset ch attrOpt rep = .ok cs' →
      cs'.len = cs.len ∧ cs'.size = cs.size ∧ cs'.str.length = cs.str.length ∧
      (∀ k, k < rep →
        cs'.str[(offset - 1) + k]? =
          some ⟨ch, attrOpt.getD (cs.str.getD ((offset - 1) + k) ⟨0, 0⟩).attr⟩) ∧
      (∀ i, i < offset - 1 ∨ (offset - 1) + rep ≤ i →
        cs'.str[i]? = cs.str[i]?)) := by
  constructor
  · intro hfail
    unfold Cset_ch
    by_cases hoff : 0 < offset ∧ offset ≤ cs.len
    · rw [if_neg (not_not.mpr hoff)]
      have hrep : ¬(0 < rep ∧ rep ≤ cs.len - offset + 1) := by
        rcases hfail with h | h
        · exact absurd ⟨by omega, hoff.2⟩ h
        · intro hc; exact h ⟨by omega, hc.2⟩
      rw [if_pos hrep]
    · rw [if_pos hoff]
  · intro cs' hok
    obtain ⟨hoff, hrep, hrec⟩ := Cset_ch_ok_elim hok
    rw [hrec]
    dsimp only
    refine ⟨rfl, rfl, setChLoop_length rep cs.str (offset - 1) ch attrOpt, ?_, ?_⟩
    · intro k hk
      exact setChLoop_getElem?_inside rep cs.str (offset - 1) ch attrOpt k hk (by omega)
    · intro i hi
      exact setChLoop_getElem?_outside rep cs.str (offset - 1) ch attrOpt i hi

theorem C8_set_ch_bounds_witness :
    Cset_ch ⟨2, 2, [⟨32, 0⟩, ⟨32, 7⟩]⟩ 1 65 none 3 = .error .OutOfRange ∧
    (⟨2, 2, [⟨65, 0⟩, ⟨65, 7⟩]⟩ : chstr).str[(1 - 1) + 1]? = some ⟨65, 7⟩ :=
  ⟨(C8_set_ch_bounds ⟨2, 2, [⟨32, 0⟩, ⟨32, 7⟩]⟩ 1 65 3 none (by decide)).1
      (by right; decide),
   ((C8_set_ch_bounds ⟨2, 2, [⟨32, 0⟩, ⟨32, 7⟩]⟩ 1 65 2 none (by decide)).2
      ⟨2, 2, [⟨65, 0⟩, ⟨65, 7⟩]⟩ (by rfl)).2.2.2.1 1 (by decide)⟩

/-- Helper: a successful `Cset_str` implies the text decoded. -/
theorem Cset_str_ok_some {cs : chstr} {offset : Nat} {text : List Nat}
    {attr rep : Nat} {cs' : chstr}
    (hok : Cset_str cs offset text attr rep = .ok cs') :
    ∃ codes, utf8_decode_all text = some codes := by
  cases hdec : utf8_decode_all text with
  | some codes => exact ⟨codes, rfl⟩
  | none =>
    unfold Cset_str at hok
    rw [hdec] at hok
    split at hok
    · exact absurd hok (by simp)
    · split at hok
      · exact absurd hok (by simp)
      · exact absurd hok (by simp)

/-- C9: every constructor establishes, and every operation preserves,
well-formedness of the buffer — in particular `length ≤ capacity` and
`capacity ≥ 1` hold for every live buffer (`get`, `len` and `size` do
not mutate, so only the constructors, the two writes and `dup` are
listed). -/
theorem C9_invariants :
    (∀ (n : Nat) (cs : chstr), chstr_new_by_size n = .ok cs → cs.WF) ∧
    (∀ (bytes : List Nat) (attr : Nat) (cs : chstr),
      chstr_new bytes attr = .ok cs → cs.WF) ∧
    (∀ (cs : chstr) (offset : Nat) (text : List Nat) (attr rep : Nat) (cs' : chstr),
      cs.WF → Cset_str cs offset text attr rep = .ok cs' → cs'.WF) ∧
    (∀ (cs : chstr) (offset ch : Nat) (attrOpt : Option Nat) (rep : Nat) (cs' : chstr),
      cs.WF → Cset_ch cs offset ch attrOpt rep = .ok cs' → cs'.WF) ∧
    (∀ cs : chstr, cs.WF → (Cdup cs).WF) ∧
    (∀ cs : chstr, cs.WF → cs.len ≤ cs.size ∧ 1 ≤ cs.size) := by
  refine ⟨?_, ?_, ?_, ?_, ?_, ?_⟩
  · intro n cs hok
    unfold chstr_new_by_size at hok
    split at hok
    · exact absurd hok (by simp)
    next h =>
      simp only [Except.ok.injEq] at hok
      subst hok
      unfold chstr.WF
      dsimp only
      exact ⟨by omega, le_rfl, List.length_replicate n _⟩
  · intro bytes attr cs hok
    unfold chstr_new at hok
    split at hok
    · exact absurd hok (by simp)
    next hlen =>
      split at hok
      next heq => exact absurd hok (by simp)
      next codes heq =>
        simp only [Except.ok.injEq] at hok
        subst hok
        obtain ⟨hle, hpos⟩ := utf8_decode_all_spec bytes codes heq
        have hbytes : bytes ≠ [] := by
          intro h; subst h; simp at hlen
        have hcodes : 0 < codes.length := List.length_pos.mpr (hpos hbytes)
        unfold chstr.WF
        dsimp only
        refine ⟨hcodes, hle, ?_⟩
        rw [List.length_append, List.length_map, List.length_replicate]
        omega
  · intro cs offset text attr rep cs' hwf hok
    obtain ⟨codes, hdec⟩ := Cset_str_ok_some hok
    obtain ⟨hoffs, hrep, hcl, hrec⟩ := Cset_str_ok_elim hdec hok
    obtain ⟨hwf1, hwf2, hwf3⟩ := hwf
    rw [hrec]
    unfold chstr.WF
    dsimp only
    by_cases hgrow : codes.length * rep + (offset - 1) > cs.size
    · simp only [if_pos hgrow]
      refine ⟨by split <;> omega, by split <;> omega, ?_⟩
      rw [writeCells_length, List.length_append, List.length_replicate]
      omega
    · simp only [if_neg hgrow]
      refine ⟨by split <;> omega, by split <;> omega, ?_⟩
      rw [writeCells_length]
      exact hwf3
  · intro cs offset ch attrOpt rep cs' hwf hok
    obtain ⟨hoffs, hrep, hrec⟩ := Cset_ch_ok_elim hok
    obtain ⟨hwf1, hwf2, hwf3⟩ := hwf
    rw [hrec]
    unfold chstr.WF
    dsimp only
    exact ⟨hwf1, hwf2, by rw [setChLoop_length]; exact hwf3⟩
  · intro cs hwf
    obtain ⟨hwf1, hwf2, hwf3⟩ := hwf
    unfold Cdup chstr.WF
    dsimp only
    refine ⟨hwf1, le_rfl, ?_⟩
    rw [List.length_take]
    omega
  · intro cs hwf
    obtain ⟨hwf1, hwf2, _⟩ := hwf
    exact ⟨hwf2, by omega⟩

theorem C9_invariants_witness :
    (⟨3, 3, List.replicate 3 ⟨0x20, A_NORMAL⟩⟩ : chstr).WF :=
  C9_invariants.1 3 ⟨3, 3, List.replicate 3 ⟨0x20, A_NORMAL⟩⟩ (by rfl)

/-- C2 counterexample: constructing from the single codepoint `世`
(3 bytes `[228, 184, 150]`, decoding to `[19990]`) yields a buffer whose
capacity is the byte length 3, not the codepoint count 1, refuting both
"capacity equals the number of decoded codepoints" and
"`length == capacity` holds at rest except after duplication". -/
theorem C2_counterexample :
    utf8_decode_all [228, 184, 150] = some [19990] ∧
    chstr_new [228, 184, 150] 7 = .ok ⟨1, 3, [⟨19990, 7⟩, ⟨0, 0⟩, ⟨0, 0⟩]⟩ ∧
    (⟨1, 3, [⟨19990, 7⟩, ⟨0, 0⟩, ⟨0, 0⟩]⟩ : chstr).size ≠
      (⟨1, 3, [⟨19990, 7⟩, ⟨0, 0⟩, ⟨0, 0⟩]⟩ : chstr).len := by
  exact ⟨rfl, rfl, by decide⟩

/-- C2 as amended: for non-empty valid-UTF-8 input, `new_from_text` yields
`length` equal to the number of decoded codepoints and every cell of the
first `length` cells carrying the decoded codepoint with attribute `attr`;
`capacity`, however, is the BYTE length of the input, so
`capacity ≥ length`, with equality only when every codepoint is
single-byte. -/
theorem C2_new_from_text_amended (bytes : List Nat) (attr : Nat) (codes : List Nat)
    (cs : chstr)
    (hdec : utf8_decode_all bytes = some codes)
    (hok : chstr_new bytes attr = .ok cs) :
    cs.len = codes.length ∧ cs.size = bytes.length ∧ cs.len ≤ cs.size ∧
    ∀ i, i < cs.len → cs.str[i]? = (codes[i]?).map (fun c => ⟨c, attr⟩) := by
  unfold chstr_new at hok
  split at hok
  · exact absurd hok (by simp)
  next hlen =>
    rw [hdec] at hok
    simp only [Except.ok.injEq] at hok
    subst hok
    refine ⟨rfl, rfl, (utf8_decode_all_spec bytes codes hdec).1, ?_⟩
    intro i hi
    dsimp only at hi ⊢
    rw [List.getElem?_append, if_pos (by rw [List.length_map]; exact hi),
      List.getElem?_map]

theorem C2_new_from_text_amended_witness :
    (⟨5, 9, [⟨104, 9⟩, ⟨105, 9⟩, ⟨44, 9⟩, ⟨19990, 9⟩, ⟨30028, 9⟩,
      ⟨0, 0⟩, ⟨0, 0⟩, ⟨0, 0⟩, ⟨0, 0⟩]⟩ : chstr).len = 5 ∧
    (⟨5, 9, [⟨104, 9⟩, ⟨105, 9⟩, ⟨44, 9⟩, ⟨19990, 9⟩, ⟨30028, 9⟩,
      ⟨0, 0⟩, ⟨0, 0⟩, ⟨0, 0⟩, ⟨0, 0⟩]⟩ : chstr).size = 9 ∧
    (⟨5, 9, [⟨104, 9⟩, ⟨105, 9⟩, ⟨44, 9⟩, ⟨19990, 9⟩, ⟨30028, 9⟩,
      ⟨0, 0⟩, ⟨0, 0⟩, ⟨0, 0⟩, ⟨0, 0⟩]⟩ : chstr).str[3]? =
      (([104, 105, 44, 19990, 30028] : List Nat)[3]?).map (fun c => ⟨c, 9⟩) :=
  ⟨(C2_new_from_text_amended [104, 105, 44, 228, 184, 150, 231, 149, 140] 9
      [104, 105, 44, 19990, 30028] _ (by rfl) (by rfl)).1,
   (C2_new_from_text_amended [104, 105, 44, 228, 184, 150, 231, 149, 140] 9
      [104, 105, 44, 19990, 30028] _ (by rfl) (by rfl)).2.1,
   (C2_new_from_text_amended [104, 105, 44, 228, 184, 150, 231, 149, 140] 9
      [104, 105, 44, 19990, 30028] _ (by rfl) (by rfl)).2.2.2 3 (by decide)⟩

end LCurses
